import Mathlib

/-!
Verification development for `src/SimPEG/regularization/vector.py`.

The file shallowly embeds the vector-model regularization engine:
the cross-product operator stored by the `ref_dir` setter of
`CrossReferenceRegularization`, the weighting matrices `W` of
`CrossReferenceRegularization`, `AmplitudeSmallness` and
`AmplitudeSmoothnessFirstOrder`, and the `amplitude` / `deriv` / `deriv2`
methods of `BaseAmplitude`.

Conventions of the embedding:
* numpy float arrays become functions into `ℝ`; machine floats are modelled
  as exact reals (rounding is out of scope for the claims treated here);
* a stacked block vector of `k` components over `nC` cells, laid out in
  numpy Fortran order (flat index `c * nC + i` for component `c` and cell
  `i`), is modelled as a function on the index type `Fin k × Fin nC`,
  the pair `(c, i)` standing for the flat index `c * nC + i`;
* sparse matrices (`scipy.sparse`) become `Matrix` over the corresponding
  finite index types; `sp.diags d` becomes `Matrix.diagonal d`.
-/

namespace SimpegVector

/-! ## Cross-product operator built by the `ref_dir` setter
    (`CrossReferenceRegularization.ref_dir`, vector.py lines 209-236). -/

/-- Block coefficient table of the 3-D operator assembled by
`sp.bmat [[Z, R2, -R1], [-R2, Z, R0], [R1, -R0, Z]]` with
`Rk = sp.diags(value[:, k])` (vector.py lines 222-235): entry of the
diagonal block in block-row `b`, block-column `c`, at cell `i`. -/
def blockCoef3 {nC : ℕ} (r : Fin nC → Fin 3 → ℝ) (b c : Fin 3) (i : Fin nC) : ℝ :=
  ![![0, r i 2, -(r i 1)],
    ![-(r i 2), 0, r i 0],
    ![r i 1, -(r i 0), 0]] b c

/-- The 2-D operator `X = sp.bmat [[R1, -R0]]` (vector.py lines 222-225):
a single block-row of two diagonal `nC × nC` blocks, hence an
`nC × (2 nC)` matrix.  Column index `(c, j)` stands for flat column
`c * nC + j`. -/
def X2 {nC : ℕ} (r : Fin nC → Fin 2 → ℝ) : Matrix (Fin nC) (Fin 2 × Fin nC) ℝ :=
  fun i q => if q.2 = i then ![r i 1, -(r i 0)] q.1 else 0

/-- The 3-D operator `X` assembled from the nine diagonal blocks
(vector.py lines 226-235); row `(b, i)` and column `(c, j)` stand for the
flat indices `b * nC + i` and `c * nC + j`. -/
def X3 {nC : ℕ} (r : Fin nC → Fin 3 → ℝ) : Matrix (Fin 3 × Fin nC) (Fin 3 × Fin nC) ℝ :=
  fun p q => if q.2 = p.2 then blockCoef3 r p.1 q.1 p.2 else 0

/-- Shape `(rows, cols)` of the sparse operator built by the `ref_dir`
setter: `sp.bmat [[R1, -R0]]` stacks one block-row of two `nC × nC`
blocks in 2-D, and the 3-D `sp.bmat` stacks three block-rows of three
`nC × nC` blocks (vector.py lines 222-235). -/
def crossOpShape (nC dim : ℕ) : ℕ × ℕ :=
  if dim = 2 then (nC, 2 * nC) else (3 * nC, 3 * nC)

/-- The standard cell-wise cross product of two 3-vectors
(specification-side definition, from the spec's words). -/
def cross3 (a b : Fin 3 → ℝ) : Fin 3 → ℝ :=
  ![a 1 * b 2 - a 2 * b 1,
    a 2 * b 0 - a 0 * b 2,
    a 0 * b 1 - a 1 * b 0]

/-- The out-of-plane (scalar) cross product of two 2-vectors with
implicit zero third component (specification-side definition). -/
def cross2z (a b : Fin 2 → ℝ) : ℝ := a 0 * b 1 - a 1 * b 0

/-- `(X2 r).mulVec` picks out the two diagonal entries of the block-row. -/
lemma X2_mulVec {nC : ℕ} (r : Fin nC → Fin 2 → ℝ) (m : Fin 2 × Fin nC → ℝ)
    (i : Fin nC) :
    (X2 r).mulVec m i = r i 1 * m (0, i) - r i 0 * m (1, i) := by
  classical
  unfold Matrix.mulVec X2 Matrix.dotProduct
  rw [Fintype.sum_prod_type]
  have h : ∀ c : Fin 2, ∑ j : Fin nC,
      (if j = i then ![r i 1, -(r i 0)] c else 0) * m (c, j)
      = ![r i 1, -(r i 0)] c * m (c, i) := by
    intro c
    rw [Finset.sum_eq_single i]
    · simp
    · intro b _ hb; simp [hb]
    · intro hi; exact absurd (Finset.mem_univ i) hi
  simp only [h]
  rw [Fin.sum_univ_two]
  simp
  ring

/-- `(X3 r).mulVec` reduces to the block-coefficient combination at cell `i`. -/
lemma X3_mulVec {nC : ℕ} (r : Fin nC → Fin 3 → ℝ) (m : Fin 3 × Fin nC → ℝ)
    (b : Fin 3) (i : Fin nC) :
    (X3 r).mulVec m (b, i) = ∑ c : Fin 3, blockCoef3 r b c i * m (c, i) := by
  classical
  unfold Matrix.mulVec X3 Matrix.dotProduct
  rw [Fintype.sum_prod_type]
  refine Finset.sum_congr rfl ?_
  intro c _
  rw [Finset.sum_eq_single i]
  · simp
  · intro j _ hj; simp [hj]
  · intro hi; exact absurd (Finset.mem_univ i) hi

/-- C1.  The operator stored by the `ref_dir` setter computes the cell-wise
cross product `m × r`: in 2-D the single block `[diag r₁, -diag r₀]`
produces the out-of-plane scalar per cell, and in 3-D the 3×3 block
skew-symmetric matrix produces the three components of `m × r` per cell,
for a model laid out as stacked per-component blocks of length `nC`. -/
theorem crossref_X_is_cross_product :
    (∀ (nC : ℕ) (r : Fin nC → Fin 2 → ℝ) (m : Fin 2 × Fin nC → ℝ) (i : Fin nC),
      (X2 r).mulVec m i = cross2z (fun c => m (c, i)) (r i)) ∧
    (∀ (nC : ℕ) (r : Fin nC → Fin 3 → ℝ) (m : Fin 3 × Fin nC → ℝ)
      (b : Fin 3) (i : Fin nC),
      (X3 r).mulVec m (b, i) = cross3 (fun c => m (c, i)) (r i) b) := by
  constructor
  · intro nC r m i
    rw [X2_mulVec]
    unfold cross2z
    ring
  · intro nC r m b i
    rw [X3_mulVec, Fin.sum_univ_three]
    fin_cases b <;>
      simp [blockCoef3, cross3] <;> ring

/-! ## Stored state of `CrossReferenceRegularization` and the setter
    (vector.py lines 209-236): `self._ref_dir = value; ...; self._X = X`.
    The 3-D variant is modelled; the setter discards the previously cached
    operator and rebuilds it from the assigned field. -/

/-- State held by a `CrossReferenceRegularization` instance for the 3-D
case: the stored reference field `_ref_dir` and the cached operator `_X`. -/
structure CrossRefState3 (nC : ℕ) where
  ref_dir : Fin nC → Fin 3 → ℝ
  X : Matrix (Fin 3 × Fin nC) (Fin 3 × Fin nC) ℝ

/-- The `ref_dir` setter on a 3-D mesh with an `(nC, 3)` value: stores the
field and rebuilds the cached operator from it (vector.py lines 209-236). -/
def set_ref_dir3 {nC : ℕ} (_s : CrossRefState3 nC) (value : Fin nC → Fin 3 → ℝ) :
    CrossRefState3 nC :=
  { ref_dir := value, X := X3 value }

/-- C10 counterexample.  On a 2-D mesh with `nC = 1` (so `n_comp = 2`), the
operator built by the setter has shape `(nC, 2 nC) = (1, 2)`, not the square
`(n_comp * nC, n_comp * nC) = (2, 2)` shape the claim asserts. -/
theorem crossref_X_not_square_2d :
    crossOpShape 1 2 ≠ (2 * 1, 2 * 1) := by
  decide

/-- C10 (amended).  The 3-D operator is square of shape `(3 nC, 3 nC)` and
skew-symmetric (`Xᵀ = -X`); the 2-D operator is a single block-row of shape
`(nC, 2 nC)`; and the setter rebuilds the cached operator from the newly
assigned field whenever `ref_dir` is reassigned. -/
theorem crossref_X_skew_and_rebuilt :
    (∀ (nC : ℕ) (r : Fin nC → Fin 3 → ℝ), (X3 r).transpose = -(X3 r)) ∧
    (∀ nC : ℕ, crossOpShape nC 3 = (3 * nC, 3 * nC) ∧
      crossOpShape nC 2 = (nC, 2 * nC)) ∧
    (∀ (nC : ℕ) (s : CrossRefState3 nC) (v₁ v₂ : Fin nC → Fin 3 → ℝ),
      (set_ref_dir3 (set_ref_dir3 s v₁) v₂).X = X3 v₂ ∧
      (set_ref_dir3 (set_ref_dir3 s v₁) v₂).ref_dir = v₂) := by
  refine ⟨?_, ?_, ?_⟩
  · intro nC r
    ext p q
    simp only [Matrix.transpose_apply, Matrix.neg_apply, X3]
    rcases p with ⟨b, i⟩
    rcases q with ⟨c, j⟩
    by_cases h : i = j
    · subst h
      simp only [if_pos rfl]
      fin_cases b <;> fin_cases c <;> simp [blockCoef3]
    · have h1 : ¬(j = i) := fun hji => h hji.symm
      simp [h, h1]
  · intro nC
    constructor <;> simp [crossOpShape]
  · intro nC s v₁ v₂
    exact ⟨rfl, rfl⟩

/-! ## Reshape and block-diagonal machinery shared by `BaseAmplitude.deriv`
    and `BaseAmplitude.deriv2` (vector.py lines 387-408).

    `u.reshape((-1, k), order="F")` of a stacked vector of `k` length-`L`
    blocks puts block `c` into column `c`; with the pair encoding
    `(c, j) ↦ c * L + j` this is currying.  `.flatten(order="F")` is its
    inverse.  `sp.block_diag([A] * k)` repeats `A` down the diagonal. -/

/-- `reshape((-1, k), order="F")` of a stacked vector: entry `(j, c)` of the
resulting `(L, k)` matrix is flat entry `c * L + j`, i.e. `u (c, j)`. -/
def reshapeF {k L : ℕ} (u : Fin k × Fin L → ℝ) : Matrix (Fin L) (Fin k) ℝ :=
  fun j c => u (c, j)

/-- `.flatten(order="F")` of an `(L, k)` matrix back into the stacked
vector: flat entry `c * L + j` is matrix entry `(j, c)`. -/
def flattenF {k L : ℕ} (M : Matrix (Fin L) (Fin k) ℝ) : Fin k × Fin L → ℝ :=
  fun p => M p.2 p.1

/-- `sp.block_diag([A] * k)`: the block-diagonal matrix repeating `A`
once per component. -/
def blockDiagRep (k : ℕ) {L : ℕ} (A : Matrix (Fin L) (Fin L) ℝ) :
    Matrix (Fin k × Fin L) (Fin k × Fin L) ℝ :=
  fun p q => if p.1 = q.1 then A p.2 q.2 else 0

/-- Applying the repeated block-diagonal matrix to a stacked vector is the
reshape-multiply-flatten trick used by the matrix-free paths. -/
lemma blockDiagRep_mulVec {k L : ℕ} (A : Matrix (Fin L) (Fin L) ℝ)
    (u : Fin k × Fin L → ℝ) :
    (blockDiagRep k A).mulVec u = flattenF (A * reshapeF u) := by
  classical
  funext p
  rcases p with ⟨c, j⟩
  unfold Matrix.mulVec blockDiagRep Matrix.dotProduct flattenF reshapeF
  rw [Fintype.sum_prod_type, Finset.sum_eq_single c]
  · simp [Matrix.mul_apply]
  · intro b _ hb; simp [Ne.symm hb]
  · intro hc; exact absurd (Finset.mem_univ c) hc

/-! ## `BaseAmplitude` (vector.py lines 373-408)

    The instance collaborators that live outside `src/` are parameters of
    the embedding:
    * `P` — the matrix of the linear `mapping` (`self.mapping * u` and
      `self.mapping.deriv`), with `p` model parameters and output the
      stacked `k`-component field over `nC` cells;
    * `mref` — the reference model, so that `self._delta_m m = m - mref`.
      Modelled from the spec: `_delta_m` of the regularization base class
      (not under `src/`) shifts the model by the reference model ("the
      mapped, reference-shifted model", spec section 4.3);
    * `J` — the matrix of `self.f_m_deriv m` (the mapping derivative for
      the smallness term, `block_diag([cell_gradient] * n_comp) * P` for
      the smoothness term), with rows the `k` stacked length-`L` blocks;
    * `d` — the diagonal of the weighting matrix `self.W`
      (`sp.diags` in both `AmplitudeSmallness.W` and
      `AmplitudeSmoothnessFirstOrder.W`). -/

/-- `np.linalg.norm(M, axis=1)`: the per-row Euclidean norm. -/
noncomputable def npRowNorm {L k : ℕ} (M : Matrix (Fin L) (Fin k) ℝ) :
    Fin L → ℝ :=
  fun i => Real.sqrt (∑ c, M i c ^ 2)

/-- `BaseAmplitude.amplitude` (vector.py lines 379-385):
`np.linalg.norm((mapping * _delta_m(m)).reshape((nC, n_comp), order="F"), axis=1)`. -/
noncomputable def amplitude {nC k p : ℕ} (P : Matrix (Fin k × Fin nC) (Fin p) ℝ)
    (mref m : Fin p → ℝ) : Fin nC → ℝ :=
  npRowNorm (reshapeF (P.mulVec (m - mref)))

/-- `BaseAmplitude.deriv` (vector.py lines 387-395):
`f_m_deriv(m).T * (W.T @ W @ (f_m_deriv(m) @ d_m).reshape((-1, n_comp), order="F")).flatten(order="F")`. -/
noncomputable def ampDeriv {L k p : ℕ} (J : Matrix (Fin k × Fin L) (Fin p) ℝ)
    (d : Fin L → ℝ) (mref m : Fin p → ℝ) : Fin p → ℝ :=
  J.transpose.mulVec
    (flattenF (((Matrix.diagonal d).transpose * Matrix.diagonal d)
      * reshapeF (J.mulVec (m - mref))))

/-- `BaseAmplitude.deriv2` with `v is None` (vector.py lines 401-404):
`f_m_deriv.T * (sp.block_diag([W.T * W] * n_comp) * f_m_deriv)`. -/
noncomputable def ampDeriv2Full {L k p : ℕ}
    (J : Matrix (Fin k × Fin L) (Fin p) ℝ) (d : Fin L → ℝ) :
    Matrix (Fin p) (Fin p) ℝ :=
  J.transpose *
    (blockDiagRep k ((Matrix.diagonal d).transpose * Matrix.diagonal d) * J)

/-- `BaseAmplitude.deriv2` with `v` given (vector.py lines 406-408):
`f_m_deriv.T * (W.T @ W @ (f_m_deriv * v).reshape((-1, n_comp), order="F")).flatten(order="F")`. -/
noncomputable def ampDeriv2Vec {L k p : ℕ}
    (J : Matrix (Fin k × Fin L) (Fin p) ℝ) (d : Fin L → ℝ) (v : Fin p → ℝ) :
    Fin p → ℝ :=
  J.transpose.mulVec
    (flattenF (((Matrix.diagonal d).transpose * Matrix.diagonal d)
      * reshapeF (J.mulVec v)))

/-- C3.  The full-matrix path of `BaseAmplitude.deriv2` applied to any
vector `v` agrees with the matrix-free path `deriv2(m, v)`, for every
number of components `k`, every `f_m_deriv` matrix `J`, and every diagonal
weighting matrix (which covers both the smallness and the smoothness `W`,
both built with `sp.diags`). -/
theorem amp_deriv2_paths_agree {L k p : ℕ}
    (J : Matrix (Fin k × Fin L) (Fin p) ℝ) (d : Fin L → ℝ) (v : Fin p → ℝ) :
    (ampDeriv2Full J d).mulVec v = ampDeriv2Vec J d v := by
  unfold ampDeriv2Full ampDeriv2Vec
  rw [← Matrix.mulVec_mulVec, ← Matrix.mulVec_mulVec, blockDiagRep_mulVec]

/-- C4.  On any model — in particular any model with cells of exactly zero
amplitude — `BaseAmplitude.deriv` equals the explicit division-free
Gauss-Newton closed form `Jᵀ (block_diag Wᵀ W) J (m - mref)`: no division
by the amplitude occurs on the derivative path, so zero-amplitude rows get
a deterministic finite value rather than a NaN or an error. -/
theorem amp_deriv_total_at_zero_amplitude {nC k p : ℕ}
    (P : Matrix (Fin k × Fin nC) (Fin p) ℝ)
    (J : Matrix (Fin k × Fin nC) (Fin p) ℝ) (d : Fin nC → ℝ)
    (mref m : Fin p → ℝ) (i : Fin nC)
    (hzero : amplitude P mref m i = 0) :
    ampDeriv J d mref m = (ampDeriv2Full J d).mulVec (m - mref) := by
  clear hzero
  unfold ampDeriv ampDeriv2Full
  rw [← Matrix.mulVec_mulVec, ← Matrix.mulVec_mulVec, blockDiagRep_mulVec]

/-- Witness for C4 at a concrete input: the all-zero model on a
one-cell, one-component, one-parameter instance has amplitude exactly `0`
in cell `0`, and `deriv` there evaluates to the closed form (both sides
are the zero vector). -/
theorem amp_deriv_total_at_zero_amplitude_witness :
    amplitude (0 : Matrix (Fin 1 × Fin 1) (Fin 1) ℝ) 0 0 0 = 0 ∧
    ampDeriv (0 : Matrix (Fin 1 × Fin 1) (Fin 1) ℝ) 0 0 0 =
      (ampDeriv2Full (0 : Matrix (Fin 1 × Fin 1) (Fin 1) ℝ) 0).mulVec (0 - 0) := by
  have h0 : amplitude (0 : Matrix (Fin 1 × Fin 1) (Fin 1) ℝ) 0 0 0 = 0 := by
    simp [amplitude, npRowNorm, reshapeF]
  exact ⟨h0, amp_deriv_total_at_zero_amplitude 0 0 0 0 0 0 h0⟩

/-- C2.  `BaseAmplitude.amplitude` returns, for each of the `nC` cells, the
Euclidean norm of the corresponding row of the mapped, reference-shifted
model reshaped column-major into an `(nC, n_comp)` matrix (the output is a
length-`nC` vector by its type); in particular, when every cell's
per-component vector has Euclidean length one, the result is the all-ones
vector of length `nC`. -/
theorem amplitude_is_row_norm {nC k p : ℕ}
    (P : Matrix (Fin k × Fin nC) (Fin p) ℝ) (mref m : Fin p → ℝ) :
    (∀ i : Fin nC,
      amplitude P mref m i =
        Real.sqrt (∑ c : Fin k, P.mulVec (m - mref) (c, i) ^ 2)) ∧
    ((∀ i : Fin nC, ∑ c : Fin k, P.mulVec (m - mref) (c, i) ^ 2 = 1) →
      ∀ i : Fin nC, amplitude P mref m i = 1) := by
  constructor
  · intro i
    rfl
  · intro h i
    show Real.sqrt (∑ c : Fin k, P.mulVec (m - mref) (c, i) ^ 2) = 1
    rw [h i, Real.sqrt_one]

/-- Witness for C2 at a concrete input: one cell, three components, the
identity-like mapping sending parameter `c` to component `c`, zero
reference model and model `(1, 0, 0)`; every cell has unit Euclidean
length and `amplitude` evaluates to the all-ones vector. -/
theorem amplitude_is_row_norm_witness :
    (∀ i : Fin 1,
      ∑ c : Fin 3,
        (Matrix.of (fun (q : Fin 3 × Fin 1) (j : Fin 3) =>
          if q.1 = j then (1 : ℝ) else 0)).mulVec
            (![1, 0, 0] - 0) (c, i) ^ 2 = 1) ∧
    (∀ i : Fin 1,
      amplitude (Matrix.of (fun (q : Fin 3 × Fin 1) (j : Fin 3) =>
        if q.1 = j then (1 : ℝ) else 0)) 0 ![1, 0, 0] i = 1) := by
  have h : ∀ i : Fin 1,
      ∑ c : Fin 3,
        (Matrix.of (fun (q : Fin 3 × Fin 1) (j : Fin 3) =>
          if q.1 = j then (1 : ℝ) else 0)).mulVec
            (![1, 0, 0] - 0) (c, i) ^ 2 = 1 := by
    intro i
    simp [Matrix.mulVec, Matrix.dotProduct, Fin.sum_univ_three,
      Fin.sum_univ_succ]
  exact ⟨h, (amplitude_is_row_norm _ 0 ![1, 0, 0]).2 h⟩

/-! ## `CrossReferenceRegularization.W` (vector.py lines 337-370)

    The loop over `self._weights.values()` multiplies an accumulator
    (initialised to `np.ones(nC)`) by each registered weight array:
    * a value of shape `(nC,)` is multiplied in directly;
    * a value whose size is `dim * nC` — a flat `(dim*nC,)` array or an
      `(nC, dim)` array; `reshape((nC, dim), order="F")` maps flat entry
      `c * nC + i` to row `i`, column `c` — contributes its per-cell row
      norms `np.linalg.norm(..., axis=1)`.
    The accumulated weights are square-rooted, and the diagonal is used
    directly when `mesh.dim == 2` and replicated three times
    (`np.r_[weights, weights, weights]`) otherwise. -/

/-- A registered weight array of one of the shapes the cross-reference `W`
loop recognises: `cell w` is a `(nC,)` array, `comp w` is an array of size
`dim * nC` (flat Fortran-ordered or `(nC, dim)`), recorded by its
`(nC, dim)` reshape. -/
inductive CRWeight (nC dim : ℕ) where
  | cell (w : Fin nC → ℝ)
  | comp (w : Fin nC → Fin dim → ℝ)

/-- The accumulation loop of `CrossReferenceRegularization.W`
(vector.py lines 354-363), with the running `weights` accumulator. -/
noncomputable def crwLoop {nC dim : ℕ} :
    List (CRWeight nC dim) → (Fin nC → ℝ) → Fin nC → ℝ
  | [], acc => acc
  | CRWeight.cell w :: rest, acc =>
      crwLoop rest (fun i => acc i * w i)
  | CRWeight.comp w :: rest, acc =>
      crwLoop rest (fun i => acc i * Real.sqrt (∑ j, w i j ^ 2))

/-- The reduction of one registered weight to a scalar per cell, as the
spec words it: a cell weight stands for itself, a per-component weight is
reduced via the Euclidean norm across components
(specification-side definition). -/
noncomputable def crwReduce {nC dim : ℕ} (w : CRWeight nC dim) : Fin nC → ℝ :=
  match w with
  | CRWeight.cell v => v
  | CRWeight.comp v => fun i => Real.sqrt (∑ j, v i j ^ 2)

/-- Diagonal of `CrossReferenceRegularization.W` on a 2-D mesh
(vector.py lines 364-366: `weights = np.sqrt(weights); diag = weights`). -/
noncomputable def crossRefWdiag2 {nC : ℕ} (ws : List (CRWeight nC 2)) :
    Fin nC → ℝ :=
  fun i => Real.sqrt (crwLoop ws (fun _ => 1) i)

/-- Diagonal of `CrossReferenceRegularization.W` on a 3-D mesh
(vector.py lines 364-368: `diag = np.r_[weights, weights, weights]`);
index `(b, i)` is flat diagonal position `b * nC + i`. -/
noncomputable def crossRefWdiag3 {nC : ℕ} (ws : List (CRWeight nC 3)) :
    Fin 3 × Fin nC → ℝ :=
  fun q => Real.sqrt (crwLoop ws (fun _ => 1) q.2)

/-- The imperative accumulation loop computes the accumulator times the
product of the per-weight reductions. -/
lemma crwLoop_eq_prod {nC dim : ℕ} (ws : List (CRWeight nC dim))
    (acc : Fin nC → ℝ) (i : Fin nC) :
    crwLoop ws acc i = acc i * (ws.map (fun w => crwReduce w i)).prod := by
  induction ws generalizing acc with
  | nil => simp [crwLoop]
  | cons w rest ih =>
      cases w with
      | cell v =>
          rw [show crwLoop (CRWeight.cell v :: rest) acc
              = crwLoop rest (fun j => acc j * v j) from rfl, ih]
          simp [crwReduce, mul_assoc]
      | comp v =>
          rw [show crwLoop (CRWeight.comp v :: rest) acc
              = crwLoop rest
                  (fun j => acc j * Real.sqrt (∑ c, v j c ^ 2)) from rfl, ih]
          simp [crwReduce, mul_assoc]

/-- C6.  The cross-reference weighting matrix is the diagonal of the square
root of the multiplicative combination of all registered weights, with
per-component weights first reduced to one scalar per cell via the
Euclidean norm across components; the resulting `nC`-length diagonal is
used directly on a 2-D mesh and replicated identically over the three
cross-product output blocks on a 3-D mesh. -/
theorem crossref_W_combines_weights {nC : ℕ} :
    (∀ (ws : List (CRWeight nC 2)) (i : Fin nC),
      crossRefWdiag2 ws i =
        Real.sqrt ((ws.map (fun w => crwReduce w i)).prod)) ∧
    (∀ (ws : List (CRWeight nC 3)) (b : Fin 3) (i : Fin nC),
      crossRefWdiag3 ws (b, i) =
        Real.sqrt ((ws.map (fun w => crwReduce w i)).prod)) := by
  constructor
  · intro ws i
    unfold crossRefWdiag2
    rw [crwLoop_eq_prod, one_mul]
  · intro ws b i
    unfold crossRefWdiag3
    rw [crwLoop_eq_prod, one_mul]

/-- C5 counterexample.  On a 2-D cross-reference instance with `nC = 1`,
registering the all-ones `(nC,)` weight together with the all-ones
`(nC, dim)` weight changes the weighting matrix: the per-component ones
reduce to `√2` per cell, so the diagonal entry becomes `√√2 ≠ 1`, while
with no registered weights it is `1`. -/
theorem crossref_W_unit_weights_change_W :
    crossRefWdiag2
        ([CRWeight.cell (fun _ => 1), CRWeight.comp (fun _ _ => 1)] :
          List (CRWeight 1 2)) 0 ≠
      crossRefWdiag2 ([] : List (CRWeight 1 2)) 0 := by
  have hL : crossRefWdiag2
      ([CRWeight.cell (fun _ => 1), CRWeight.comp (fun _ _ => 1)] :
        List (CRWeight 1 2)) 0
      = Real.sqrt (Real.sqrt 2) := by
    unfold crossRefWdiag2
    rw [crwLoop_eq_prod]
    norm_num [crwReduce, Fin.sum_univ_two]
  have hR : crossRefWdiag2 ([] : List (CRWeight 1 2)) 0 = 1 := by
    unfold crossRefWdiag2
    simp [crwLoop]
  rw [hL, hR]
  intro h
  rw [Real.sqrt_eq_one] at h
  rw [Real.sqrt_eq_one] at h
  norm_num at h

/-- C5 (amended).  Registering an all-ones `(nC,)` weight leaves the
cross-reference weighting matrix unchanged, but additionally registering an
all-ones per-component `(nC, dim)` weight multiplies every diagonal entry
by `dim^(1/4)` (`√√2` on a 2-D mesh) instead of leaving it unchanged: the
per-component all-ones array reduces to the Euclidean norm `√dim` of a
ones-row, not to `1`. -/
theorem crossref_W_unit_weights_scale {nC : ℕ}
    (ws : List (CRWeight nC 2)) (i : Fin nC) :
    crossRefWdiag2 (ws ++ [CRWeight.cell (fun _ => 1)]) i =
      crossRefWdiag2 ws i ∧
    crossRefWdiag2
        (ws ++ [CRWeight.cell (fun _ => 1), CRWeight.comp (fun _ _ => 1)]) i =
      Real.sqrt (Real.sqrt 2) * crossRefWdiag2 ws i := by
  have hsum : (∑ j : Fin 2, (1 : ℝ) ^ 2) = 2 := by
    norm_num [Fin.sum_univ_two]
  constructor
  · unfold crossRefWdiag2
    rw [crwLoop_eq_prod, crwLoop_eq_prod]
    simp [crwReduce]
  · unfold crossRefWdiag2
    rw [crwLoop_eq_prod, crwLoop_eq_prod]
    simp only [List.map_append, List.prod_append, List.map_cons,
      List.map_nil, List.prod_cons, List.prod_nil, crwReduce, hsum, one_mul,
      mul_one]
    rw [Real.sqrt_mul' _ (Real.sqrt_nonneg 2), mul_comm]

/-! ## `AmplitudeSmoothnessFirstOrder` weights (vector.py lines 450-510)

    numpy arrays of unknown rank are modelled by an inductive of 1-D and
    2-D real arrays (`Arr`), so that the branch dispatch of the `W` loop on
    `values.shape` can be embedded faithfully.  Matrices are lists of rows;
    a 2-D weight always carries `n_comp` columns (the shapes accepted by
    `_weights_shapes` are `(nC, n_comp)` and `(nF, n_comp)`), for which
    `reshape((-1, n_comp), order="F")` is the identity. -/

/-- A numpy array that is either 1-D (`vec`) or 2-D (`mat`, list of rows). -/
inductive Arr where
  | vec (l : List ℝ)
  | mat (rows : List (List ℝ))

/-- Dot product of two equal-length lists. -/
def dotL (a b : List ℝ) : ℝ := (List.zipWith (fun x y => x * y) a b).sum

/-- Matrix–vector product, rows times vector. -/
def matVecL (A : List (List ℝ)) (v : List ℝ) : List ℝ :=
  A.map (fun row => dotL row v)

/-- Column `c` of a list-of-rows matrix. -/
def colL (B : List (List ℝ)) (c : ℕ) : List ℝ :=
  B.map (fun row => row.getD c 0)

/-- Matrix–matrix product, `A` of shape `(m, n)` times `B` of shape
`(n, k)`, as performed by `average_cell_2_face * values` on a 2-D values
array. -/
def matMatL (A B : List (List ℝ)) : List (List ℝ) :=
  A.map (fun arow => (List.range (B.headD []).length).map
    (fun c => dotL arow (colL B c)))

/-- `AmplitudeSmoothnessFirstOrder._weights_shapes`
(vector.py lines 450-470): the acceptable weight shapes
`[(nF,), (n_comp*nF,), (nF, n_comp), (nC,), (n_comp*nC,), (nC, n_comp)]`. -/
def smoothWeightsShapes (nC nF k : ℕ) : List (List ℕ) :=
  [[nF], [k * nF], [nF, k], [nC], [k * nC], [nC, k]]

/-- One iteration of the loop in `AmplitudeSmoothnessFirstOrder.W`
(vector.py lines 496-506) applied to a registered weight value:

    if values.shape[0] == nC: values = average_cell_2_face * values
    elif not values.shape == (nF,):
        values = np.linalg.norm(values.reshape((-1, n_comp), order="F"), axis=1)
        if values.size == nC: values = average_cell_2_face * values

`ave` is the `(nF, nC)` cell-to-face averaging matrix, `k` is `n_comp`. -/
noncomputable def smoothProcessValue (nC nF k : ℕ) (ave : List (List ℝ))
    (v : Arr) : Arr :=
  match v with
  | Arr.vec l =>
      if l.length = nC then Arr.vec (matVecL ave l)
      else if l.length = nF then Arr.vec l
      else
        let L := l.length / k
        let red := (List.range L).map (fun j =>
          Real.sqrt (((List.range k).map
            (fun c => l.getD (c * L + j) 0 ^ 2)).sum))
        if red.length = nC then Arr.vec (matVecL ave red) else Arr.vec red
  | Arr.mat rows =>
      -- rows.length == nC triggers the first branch: the 2-D array is
      -- projected whole, `ave @ rows`, and stays 2-D
      if rows.length = nC then Arr.mat (matMatL ave rows)
      else
        let red := rows.map (fun row =>
          Real.sqrt ((row.map (fun x => x ^ 2)).sum))
        if red.length = nC then Arr.vec (matVecL ave red) else Arr.vec red

/-- The processing the spec describes for one registered weight
(specification-side definition): per-component weights are first reduced
to one value per location via the Euclidean norm across components, then
projected to faces if still cell-based; plain cell weights are projected;
face-length weights pass through. -/
noncomputable def smoothSpecProcessValue (nC nF k : ℕ) (ave : List (List ℝ))
    (v : Arr) : Arr :=
  match v with
  | Arr.vec l =>
      if l.length = nC then Arr.vec (matVecL ave l)
      else if l.length = nF then Arr.vec l
      else
        let L := l.length / k
        let red := (List.range L).map (fun j =>
          Real.sqrt (((List.range k).map
            (fun c => l.getD (c * L + j) 0 ^ 2)).sum))
        if red.length = nC then Arr.vec (matVecL ave red) else Arr.vec red
  | Arr.mat rows =>
      let red := rows.map (fun row =>
        Real.sqrt ((row.map (fun x => x ^ 2)).sum))
      if red.length = nC then Arr.vec (matVecL ave red) else Arr.vec red

/-- C7 (code bug).  With `nC = 2`, `nF = 3`, `n_comp = 2` and the averaging
matrix `[[1,0],[0,1],[1,1]]`, the acceptable `(nC, n_comp)` all-ones weight
is dispatched by `values.shape[0] == nC` into the projection branch without
norm reduction: the loop produces a 2-D `(nF, n_comp)` array — never the
`nF`-length vector every weight must reduce to for the diagonal of `W` —
while the documented processing reduces it to per-cell norms `√2` and then
projects, giving an `nF`-length vector. -/
theorem smooth_W_mishandles_cell_comp_weight :
    smoothProcessValue 2 3 2 [[1, 0], [0, 1], [1, 1]]
        (Arr.mat [[1, 1], [1, 1]]) =
      Arr.mat [[1, 1], [1, 1], [2, 2]] ∧
    smoothSpecProcessValue 2 3 2 [[1, 0], [0, 1], [1, 1]]
        (Arr.mat [[1, 1], [1, 1]]) =
      Arr.vec [Real.sqrt 2, Real.sqrt 2, Real.sqrt 2 + Real.sqrt 2] ∧
    (∀ l : List ℝ,
      smoothProcessValue 2 3 2 [[1, 0], [0, 1], [1, 1]]
        (Arr.mat [[1, 1], [1, 1]]) ≠ Arr.vec l) ∧
    [2, 2] ∈ smoothWeightsShapes 2 3 2 := by
  have hcode : smoothProcessValue 2 3 2 [[1, 0], [0, 1], [1, 1]]
      (Arr.mat [[1, 1], [1, 1]]) = Arr.mat [[1, 1], [1, 1], [2, 2]] := by
    unfold smoothProcessValue
    norm_num [matMatL, dotL, colL, List.range_succ]
  have hspec : smoothSpecProcessValue 2 3 2 [[1, 0], [0, 1], [1, 1]]
      (Arr.mat [[1, 1], [1, 1]]) =
      Arr.vec [Real.sqrt 2, Real.sqrt 2, Real.sqrt 2 + Real.sqrt 2] := by
    unfold smoothSpecProcessValue
    norm_num [matVecL, dotL]
  refine ⟨hcode, hspec, ?_, ?_⟩
  · intro l h
    rw [hcode] at h
    exact Arr.noConfusion h
  · simp [smoothWeightsShapes]

/-! ## `VectorAmplitude.__init__` (vector.py lines 537-584) -/

/-- The mesh argument: a `discretize` `BaseMesh` of some dimension, an
already-wrapped `RegularizationMesh`, or an object of unrecognized type. -/
inductive MeshArg where
  | baseMesh (dim : ℕ)
  | regMesh (dim : ℕ)
  | unrecognized

/-- Smoothness orientation. -/
inductive Orient where
  | x
  | y
  | z
deriving DecidableEq

/-- A regularization term built by `VectorAmplitude.__init__`. -/
inductive AmpTerm where
  | smallness
  | smoothness (o : Orient)
deriving DecidableEq

/-- `VectorAmplitude.__init__` (vector.py lines 537-584): raise `TypeError`
when the mesh is of unrecognized type, otherwise build the smallness and
`x`-smoothness terms unconditionally, appending `y` when `dim > 1` and `z`
when `dim > 2`.  The returned list records the allocated terms in order;
the error branch allocates none. -/
def vectorAmplitudeInit (mesh : MeshArg) : Except String (List AmpTerm) :=
  match mesh with
  | MeshArg.unrecognized =>
      Except.error
        "regularization_mesh must be of type RegularizationMesh or BaseMesh"
  | MeshArg.baseMesh dim =>
      Except.ok ([AmpTerm.smallness, AmpTerm.smoothness Orient.x] ++
        (if 1 < dim then [AmpTerm.smoothness Orient.y] else []) ++
        (if 2 < dim then [AmpTerm.smoothness Orient.z] else []))
  | MeshArg.regMesh dim =>
      -- a RegularizationMesh is accepted as-is and wrapped the same way
      Except.ok ([AmpTerm.smallness, AmpTerm.smoothness Orient.x] ++
        (if 1 < dim then [AmpTerm.smoothness Orient.y] else []) ++
        (if 2 < dim then [AmpTerm.smoothness Orient.z] else []))

/-- C8 counterexample.  Constructing `VectorAmplitude` with a recognized
1-D mesh does not raise: the smallness and `x`-smoothness terms are
allocated and construction succeeds. -/
theorem vectorAmplitude_1d_mesh_does_not_raise :
    vectorAmplitudeInit (MeshArg.baseMesh 1) =
      Except.ok [AmpTerm.smallness, AmpTerm.smoothness Orient.x] := by
  rfl

/-- C8 (amended).  Constructing with a mesh object of unrecognized type
fails with a type error before any term is built; a recognized mesh of any
dimension — including 1-D — does not raise, and builds the smallness and
`x`-smoothness terms, plus `y` when `dim > 1` and `z` when `dim > 2`. -/
theorem vectorAmplitude_init_terms :
    (∃ msg, vectorAmplitudeInit MeshArg.unrecognized = Except.error msg) ∧
    (∀ d, vectorAmplitudeInit (MeshArg.baseMesh d) =
      Except.ok ([AmpTerm.smallness, AmpTerm.smoothness Orient.x] ++
        (if 1 < d then [AmpTerm.smoothness Orient.y] else []) ++
        (if 2 < d then [AmpTerm.smoothness Orient.z] else []))) ∧
    (∀ d, vectorAmplitudeInit (MeshArg.regMesh d) =
      vectorAmplitudeInit (MeshArg.baseMesh d)) := by
  exact ⟨⟨_, rfl⟩, fun _ => rfl, fun _ => rfl⟩

/-! ## `CrossReferenceRegularization.__init__` (vector.py lines 180-192) -/

/-- Modelled from the spec: the parent initializer (`Smallness`, not under
`src/`) sets the stored reference model from the `reference_model` keyword
argument when one is present, defaulting to zero. -/
def superRefModel (kw : Option ℝ) : ℝ := kw.getD 0

/-- The reference model stored by `CrossReferenceRegularization.__init__`
(vector.py lines 180-192): `kwargs.pop("reference_model", None)` removes
any caller-supplied keyword, the parent is initialized with the remaining
kwargs, and `self.reference_model = 0.0` is assigned last. -/
def crossRefInitRefModel (kw : Option ℝ) : ℝ :=
  let popped : Option ℝ := none
  let _fromSuper := superRefModel popped
  0

/-- C9.  After constructing a `CrossReferenceRegularization`, the stored
reference model is zero whatever `reference_model` keyword the caller
supplied — the keyword is silently discarded (the parent would have used
it, as the second conjunct records) — and the setter stores the reference
direction the objective measures against. -/
theorem crossref_reference_model_is_zero :
    (∀ c : ℝ, crossRefInitRefModel (some c) = 0 ∧ superRefModel (some c) = c) ∧
    crossRefInitRefModel none = 0 ∧
    (∀ (nC : ℕ) (s : CrossRefState3 nC) (v : Fin nC → Fin 3 → ℝ),
      (set_ref_dir3 s v).ref_dir = v) := by
  exact ⟨fun c => ⟨rfl, rfl⟩, rfl, fun nC s v => rfl⟩

end SimpegVector
